import Mathlib

/-!
Verification of `finrl/marketdata/yahoodownloader.py`.

The module is embedded shallowly:

* A pandas `DataFrame` becomes the structure `DF`: a row index (`idx`, one
  label per row, with an optional index name), a list of column names and a
  list of rows, each row a list of cells.
* A cell is either missing (`Cell.na`), a timestamp (`Cell.date y m d`),
  a number (`Cell.num`, modelling float64/int64 values as exact rationals)
  or a string (`Cell.str`).
* Python exceptions become the `Exc` type and fallible steps return
  `Except Exc`.
* The Yahoo vendor (`yf.download`) is an opaque collaborator, modelled as an
  oracle `String → Except Exc DF` giving, per ticker, either the vendor
  frame or the exception the fetch task raised.
* `concurrent.futures.as_completed` yields futures in an arbitrary
  completion order, so `fetch_data` is parametrised by `order`, the list of
  tickers in the order their futures complete; it is a permutation of the
  submitted `ticker_list`.
-/

/-- A cell of a data frame.  `num` models the float64/int64 numeric values as
exact rationals; `date` models a pandas `Timestamp` (year, month, day). -/
inductive Cell where
  | na : Cell
  | date (y m d : Nat) : Cell
  | num (q : ℚ) : Cell
  | str (s : String) : Cell
deriving DecidableEq

/-- `True` exactly on the missing-value cell (pandas `NaN`/`NaT`). -/
def Cell.isNA : Cell → Bool
  | .na => true
  | _ => false

/-- Python exceptions that the embedded code can raise. -/
inductive Exc where
  | vendorError (msg : String) : Exc
  | valueError (msg : String) : Exc
  | unboundLocalError (name : String) : Exc
  | notImplementedError : Exc
  | attributeError (name : String) : Exc
  | keyError (name : String) : Exc
deriving DecidableEq

/-- A pandas `DataFrame`: an optionally named row index (`idx` holds one
label per row), column names, and rows of cells. -/
structure DF where
  idxName : Option String
  idx : List Cell
  cols : List String
  rows : List (List Cell)
deriving DecidableEq

/-- `pd.DataFrame()`: the empty frame with an unnamed empty index. -/
def emptyDF : DF := ⟨none, [], [], []⟩

instance {ε α : Type} [DecidableEq ε] [DecidableEq α] : DecidableEq (Except ε α) := fun a b =>
  match a, b with
  | .error e, .error f =>
    if h : e = f then .isTrue (by rw [h]) else .isFalse (by intro he; injection he; exact h ‹_›)
  | .error _, .ok _ => .isFalse (by intro h; exact Except.noConfusion h)
  | .ok _, .error _ => .isFalse (by intro h; exact Except.noConfusion h)
  | .ok x, .ok y =>
    if h : x = y then .isTrue (by rw [h]) else .isFalse (by intro he; injection he; exact h ‹_›)

/-- Position of column `c` in a list of column names (first match). -/
def findIdx (c : String) : List String → Option Nat
  | [] => none
  | x :: xs => if x = c then some 0 else (findIdx c xs).map (· + 1)

/-- The cell of row `r` in column `c`, given the frame's column names;
missing columns or short rows read as `NaN` (used for alignment). -/
def getCellRow (cols : List String) (r : List Cell) (c : String) : Cell :=
  match findIdx c cols with
  | some i => r.getD i Cell.na
  | none => Cell.na

/-- `df[c] = v` for a scalar `v`: overwrite column `c`, or append it (this is
how `df['tic'] = tic` broadcasts the ticker over all rows). -/
def setColScalar (df : DF) (c : String) (v : Cell) : DF :=
  match findIdx c df.cols with
  | some i => { df with rows := df.rows.map (fun r => r.set i v) }
  | none => { df with cols := df.cols ++ [c], rows := df.rows.map (fun r => r ++ [v]) }

/-- `df[c] = vs` for a column of values `vs` (aligned positionally, as when
the right-hand side is a column of the same frame). -/
def setColList (df : DF) (c : String) (vs : List Cell) : DF :=
  match findIdx c df.cols with
  | some i => { df with rows := (df.rows.zip vs).map (fun p => p.1.set i p.2) }
  | none => { df with cols := df.cols ++ [c], rows := (df.rows.zip vs).map (fun p => p.1 ++ [p.2]) }

/-- `a.append(b)`: concatenate rows, aligning columns by name.  Columns of
`b` absent from `a` are added on the right; missing cells are filled with
`NaN`.  The result keeps `a`'s index name unless `a` is empty (appending to
the initial `pd.DataFrame()` keeps the vendor's `Date` index name). -/
def DF.append (a b : DF) : DF :=
  let extra := b.cols.filter (fun c => decide (c ∉ a.cols))
  let cols := a.cols ++ extra
  { idxName := if a.idx.isEmpty then b.idxName else a.idxName
    idx := a.idx ++ b.idx
    cols := cols
    rows := a.rows.map (fun r => r ++ List.replicate extra.length Cell.na)
      ++ b.rows.map (fun r => cols.map (fun c => getCellRow b.cols r c)) }

/-- A fresh `RangeIndex` of `n` rows (0, 1, 2, ...). -/
def rangeIdx (n : Nat) : List Cell := (List.range n).map (fun (i : Nat) => Cell.num (i : ℚ))

/-- `df.reset_index()`: the index becomes the first column (named after the
index, or `index` when the index is unnamed) and is replaced by a fresh
`RangeIndex`. -/
def reset_index (df : DF) : DF :=
  { idxName := none
    idx := rangeIdx df.rows.length
    cols := df.idxName.getD "index" :: df.cols
    rows := (df.idx.zip df.rows).map (fun p => p.1 :: p.2) }

/-- `df.reset_index(drop=True)`: replace the index by a fresh `RangeIndex`. -/
def reset_index_drop (df : DF) : DF :=
  { df with idxName := none, idx := rangeIdx df.rows.length }

/-- `df.columns = cs`: pandas raises `ValueError` on a length mismatch. -/
def set_columns (df : DF) (cs : List String) : Except Exc DF :=
  if cs.length = df.cols.length then .ok { df with cols := cs }
  else .error (.valueError "Length mismatch")

/-- `df[c]` (bracket access): the cells of column `c`; `KeyError` if the
column is absent. -/
def getColBracket (df : DF) (c : String) : Except Exc (List Cell) :=
  match findIdx c df.cols with
  | some i => .ok (df.rows.map (fun r => r.getD i Cell.na))
  | none => .error (.keyError c)

/-- `df.c` (attribute access): the cells of column `c`; `AttributeError` if
the column is absent. -/
def getColAttr (df : DF) (c : String) : Except Exc (List Cell) :=
  match findIdx c df.cols with
  | some i => .ok (df.rows.map (fun r => r.getD i Cell.na))
  | none => .error (.attributeError c)

/-- `df.drop(c, 1)`: remove column `c`. -/
def drop_col (df : DF) (c : String) : Except Exc DF :=
  match findIdx c df.cols with
  | some i => .ok { df with cols := df.cols.eraseIdx i, rows := df.rows.map (fun r => r.eraseIdx i) }
  | none => .error (.keyError c)

/-- `df.dropna()`: keep only the rows (with their index labels) that contain
no missing value. -/
def dropna (df : DF) : DF :=
  let pairs := (df.idx.zip df.rows).filter (fun p => !(p.2.any Cell.isNA))
  { df with idx := pairs.map Prod.fst, rows := pairs.map Prod.snd }

/-- The decimal digit character of `n` (callers pass `n < 10`; larger inputs
clamp to `9`). -/
def digitChar (n : Nat) : Char :=
  if n = 0 then '0' else if n = 1 then '1' else if n = 2 then '2' else if n = 3 then '3'
  else if n = 4 then '4' else if n = 5 then '5' else if n = 6 then '6' else if n = 7 then '7'
  else if n = 8 then '8' else '9'

/-- `Timestamp.strftime` with format year-month-day: zero-padded four-digit
year and two-digit month and day (pandas timestamps always have four-digit
years). -/
def formatDate (y m d : Nat) : String :=
  ⟨[digitChar (y / 1000 % 10), digitChar (y / 100 % 10), digitChar (y / 10 % 10),
    digitChar (y % 10), '-', digitChar (m / 10 % 10), digitChar (m % 10), '-',
    digitChar (d / 10 % 10), digitChar (d % 10)]⟩

/-- `x.strftime(...)` applied to one cell: formats a timestamp, raises
`ValueError` on `NaT` and `AttributeError` on non-timestamp values. -/
def strftime (c : Cell) : Except Exc Cell :=
  match c with
  | .date y m d => .ok (.str (formatDate y m d))
  | .na => .error (.valueError "NaTType does not support strftime")
  | _ => .error (.attributeError "strftime")

/-- `series.apply(lambda x: x.strftime(...))`: first failure propagates. -/
def mapStrftime : List Cell → Except Exc (List Cell)
  | [] => .ok []
  | c :: cs =>
    match strftime c with
    | .error e => .error e
    | .ok c2 =>
      match mapStrftime cs with
      | .error e => .error e
      | .ok cs2 => .ok (c2 :: cs2)

/-- Does a string have the shape `YYYY-MM-DD` (four digits, dash, two
digits, dash, two digits)? -/
def matchesYYYYMMDD (s : String) : Bool :=
  match s.data with
  | [a, b, c, d, h1, e, f, h2, g, k] =>
    a.isDigit && b.isDigit && c.isDigit && d.isDigit && decide (h1 = '-') &&
      e.isDigit && f.isDigit && decide (h2 = '-') && g.isDigit && k.isDigit
  | _ => false

/-! ### The fetch-normalize pipeline (`YahooDownloader.fetch_data`) -/

/-- The column layout of a vendor frame: `yf.download` returns a daily OHLCV
frame indexed by `Date`. -/
def stdCols : List String := ["Open", "High", "Low", "Close", "Adj Close", "Volume"]

/-- Columns of a vendor frame after `df['tic'] = tic`. -/
def std7 : List String := ["Open", "High", "Low", "Close", "Adj Close", "Volume", "tic"]

/-- The eight standardized names assigned by `data_df.columns = [...]`. -/
def renamedCols : List String :=
  ["date", "open", "high", "low", "close", "adjcp", "volume", "tic"]

/-- Columns of the final result, after `adjcp` is dropped. -/
def final7 : List String := ["date", "open", "high", "low", "close", "volume", "tic"]

/-- A day of a timestamp index is well formed: a four-digit year (pandas
timestamps range over 1677-2262) and calendar month/day fields. -/
def isWfDate : Cell → Bool
  | .date y m d =>
    decide (1000 ≤ y) && decide (y < 10000) && decide (1 ≤ m) && decide (m ≤ 12) &&
      decide (1 ≤ d) && decide (d ≤ 31)
  | _ => false

/-- The assumed shape of a successful `yf.download` result: `Date`-named
index of well-formed timestamps, the six OHLCV columns, rows of six cells. -/
def isStdVendor (df : DF) : Bool :=
  decide (df.idxName = some "Date") && decide (df.cols = stdCols) &&
    df.rows.all (fun r => decide (r.length = 6)) &&
    decide (df.idx.length = df.rows.length) && df.idx.all isWfDate

/-- The per-ticker task `yf_downloader`: download the series for `tic` and
tag every row with the ticker.  A vendor failure propagates out of the
task and surfaces when the future's `result()` is read. -/
def yf_downloader (oracle : String → Except Exc DF) (tic : String) : Except Exc DF :=
  match oracle tic with
  | .ok df => .ok (setColScalar df "tic" (Cell.str tic))
  | .error e => .error e

/-- One diagnostic line printed by the `except` branch: the repr of the
stale local `data` (the frame of some previously completed ticker) and the
exception of the failed future. -/
structure Diag where
  dataRepr : DF
  exc : Exc
deriving DecidableEq

/-- The fan-in loop over `as_completed` futures.  `ts` is the remaining
completion order, `acc` the accumulating `data_df`, `dataVar` the current
value of the local variable `data` (none while unassigned), `ds` the
diagnostics printed so far.  A failed future whose exception is handled
while `data` is still unassigned makes the `print` itself raise
`UnboundLocalError`, which is not caught and aborts the whole call. -/
def fanInLoop (oracle : String → Except Exc DF) :
    List String → DF → Option DF → List Diag → Except Exc (DF × List Diag)
  | [], acc, _, ds => .ok (acc, ds)
  | tic :: ts, acc, dataVar, ds =>
    match yf_downloader oracle tic with
    | .ok data => fanInLoop oracle ts (acc.append data) (some data) ds
    | .error exc =>
      match dataVar with
      | none => .error (.unboundLocalError "data")
      | some d => fanInLoop oracle ts acc dataVar (ds ++ [⟨d, exc⟩])

/-- Body of the `try` block: positional rename to the eight standardized
names, `close` overwritten by `adjcp`, `adjcp` dropped. -/
def renameBlock (df : DF) : Except Exc DF :=
  match set_columns df renamedCols with
  | .error e => .error e
  | .ok df2 =>
    match getColBracket df2 "adjcp" with
    | .error e => .error e
    | .ok adj => drop_col (setColList df2 "close" adj) "adjcp"

/-- The `try ... except NotImplementedError` around the rename: only
`NotImplementedError` is caught (logging "the features are not supported
currently" and proceeding with the unrenamed frame); any other exception
propagates. -/
def tryRename (df : DF) : Except Exc DF :=
  match renameBlock df with
  | .error Exc.notImplementedError => .ok df
  | r => r

/-- The single-threaded post-processing pass of `fetch_data`, applied to the
accumulated `data_df`: reset the index, rename/derive columns, normalize
`date` to a string, drop rows with missing values, reset the index again. -/
def postPipeline (df0 : DF) : Except Exc DF :=
  match tryRename (reset_index df0) with
  | .error e => .error e
  | .ok df4 =>
    match getColAttr df4 "date" with
    | .error e => .error e
    | .ok dates =>
      match mapStrftime dates with
      | .error e => .error e
      | .ok newDates => .ok (reset_index_drop (dropna (setColList df4 "date" newDates)))

/-- `YahooDownloader.fetch_data`, for a given vendor `oracle` and a given
completion `order` of the per-ticker futures (`as_completed` yields the
futures of `ticker_list` in an arbitrary order, so `order` ranges over the
permutations of `ticker_list`). -/
def fetch_data (oracle : String → Except Exc DF) (order : List String) :
    Except Exc (DF × List Diag) :=
  match fanInLoop oracle order emptyDF none [] with
  | .error e => .error e
  | .ok (df0, ds) =>
    match postPipeline df0 with
    | .error e => .error e
    | .ok df => .ok (df, ds)

/-! ### The coverage filter (`select_equal_rows_stock`) -/

/-- Number of occurrences of `x` in a list of cells. -/
def countC (x : Cell) : List Cell → Nat
  | [] => 0
  | y :: ys => (if y = x then 1 else 0) + countC x ys

/-- The distinct non-missing values of a series, as used by
`value_counts()`.  (`value_counts` sorts by descending count, but the code
only uses the resulting set of tickers through `isin`, so the order of this
list is irrelevant to the function's output.) -/
def distinctTics (l : List Cell) : List Cell := (l.filter (fun c => !c.isNA)).dedup

/-- `df_check.counts.mean()`: the arithmetic mean of the per-distinct-ticker
row counts.  (pandas computes this in float64; it is modelled as the exact
rational value.) -/
def meanCounts (tics : List Cell) : ℚ :=
  ((distinctTics tics).map (fun c => (countC c tics : ℚ))).sum / ((distinctTics tics).length : ℚ)

/-- The `tic` column as read by `getColAttr` when it exists. -/
def ticsOf (df : DF) : List Cell := df.rows.map (fun r => getCellRow df.cols r "tic")

/-- `YahooDownloader.select_equal_rows_stock`: keep the rows whose ticker's
row count is at least the mean per-ticker count.  `df.tic` raises
`AttributeError` when the column is absent. -/
def select_equal_rows_stock (df : DF) : Except Exc DF :=
  match getColAttr df "tic" with
  | .error e => .error e
  | .ok tics =>
    let select_stocks_list :=
      (distinctTics tics).filter (fun c => decide (meanCounts tics ≤ (countC c tics : ℚ)))
    let pairs := (df.idx.zip df.rows).filter
      (fun p => decide (getCellRow df.cols p.2 "tic" ∈ select_stocks_list))
    .ok { df with idx := pairs.map Prod.fst, rows := pairs.map Prod.snd }

/-! ### Basic lemmas about the embedded operations -/

lemma mem_of_findIdx_some {c : String} : ∀ {cols : List String} {i : Nat},
    findIdx c cols = some i → c ∈ cols := by
  intro cols
  induction cols with
  | nil => intro i h; simp [findIdx] at h
  | cons x xs ih =>
    intro i h
    by_cases hx : x = c
    · simp [hx]
    · simp only [findIdx, if_neg hx] at h
      cases hfi : findIdx c xs with
      | none => rw [hfi] at h; simp at h
      | some j => exact List.mem_cons_of_mem _ (ih hfi)

lemma findIdx_isSome_of_mem {c : String} : ∀ {cols : List String},
    c ∈ cols → ∃ i, findIdx c cols = some i := by
  intro cols
  induction cols with
  | nil => intro h; simp at h
  | cons x xs ih =>
    intro h
    by_cases hx : x = c
    · exact ⟨0, by simp [findIdx, hx]⟩
    · have hmem : c ∈ xs := by
        rcases List.mem_cons.1 h with h1 | h1
        · exact absurd h1.symm hx
        · exact h1
      rcases ih hmem with ⟨i, hi⟩
      exact ⟨i + 1, by simp [findIdx, hx, hi]⟩

lemma getCellRow_of_findIdx {cols : List String} {c : String} {i : Nat}
    (h : findIdx c cols = some i) (r : List Cell) :
    getCellRow cols r c = r.getD i Cell.na := by
  unfold getCellRow
  rw [h]

lemma getColAttr_eq_ticsOf {df : DF} (htic : "tic" ∈ df.cols) :
    getColAttr df "tic" = .ok (ticsOf df) := by
  rcases findIdx_isSome_of_mem htic with ⟨i, hi⟩
  unfold getColAttr
  rw [hi]
  unfold ticsOf
  refine congrArg _ (List.map_congr_left fun r _ => ?_)
  rw [getCellRow_of_findIdx hi]

lemma mem_distinctTics_iff {c : Cell} {l : List Cell} :
    c ∈ distinctTics l ↔ c ∈ l ∧ c.isNA = false := by
  simp [distinctTics, List.mem_dedup, List.mem_filter]

lemma zip_filter_snd {α β : Type} (q : β → Bool) :
    ∀ (a : List α) (b : List β), a.length = b.length →
      ((a.zip b).filter (fun p => q p.2)).map Prod.snd = b.filter q := by
  intro a
  induction a with
  | nil =>
    intro b hb
    cases b with
    | nil => rfl
    | cons y ys => simp at hb
  | cons x xs ih =>
    intro b hb
    cases b with
    | nil => simp at hb
    | cons y ys =>
      simp only [List.zip_cons_cons, List.filter_cons]
      by_cases hq : q y
      · simp only [hq, if_true, List.map_cons]
        rw [ih ys (by simpa using hb)]
      · simp only [hq, Bool.false_eq_true, if_false]
        rw [ih ys (by simpa using hb)]

lemma exists_pair_mem_zip_of_mem_snd {α β : Type} {b : β} :
    ∀ (l1 : List α) (l2 : List β), l1.length = l2.length → b ∈ l2 →
      ∃ a, (a, b) ∈ l1.zip l2 := by
  intro l1
  induction l1 with
  | nil =>
    intro l2 hl hb
    cases l2 with
    | nil => simp at hb
    | cons y ys => simp at hl
  | cons x xs ih =>
    intro l2 hl hb
    cases l2 with
    | nil => simp at hb
    | cons y ys =>
      rcases List.mem_cons.1 hb with hb | hb
      · exact ⟨x, by simp [hb]⟩
      · rcases ih ys (by simpa using hl) hb with ⟨a, ha⟩
        exact ⟨a, List.mem_cons_of_mem _ ha⟩

lemma list_exists_max_image {α : Type} (f : α → ℕ) :
    ∀ (l : List α), l ≠ [] → ∃ a ∈ l, ∀ b ∈ l, f b ≤ f a := by
  intro l
  induction l with
  | nil => intro h; exact absurd rfl h
  | cons x xs ih =>
    intro _
    cases xs with
    | nil => exact ⟨x, by simp, by simp⟩
    | cons y ys =>
      rcases ih (by simp) with ⟨a, ha, hmax⟩
      by_cases hxa : f x ≤ f a
      · refine ⟨a, List.mem_cons_of_mem _ ha, ?_⟩
        intro b hb
        rcases List.mem_cons.1 hb with hb | hb
        · rw [hb]; exact hxa
        · exact hmax b hb
      · refine ⟨x, List.mem_cons_self _ _, ?_⟩
        intro b hb
        rcases List.mem_cons.1 hb with hb | hb
        · rw [hb]
        · exact le_trans (hmax b hb) (le_of_not_le hxa)

/-- The row-keeping criterion as the specification words it: a row is kept
exactly when the row count of its ticker is at least the arithmetic mean of
the per-distinct-ticker row counts. -/
def keepTic (df : DF) (r : List Cell) : Bool :=
  decide (meanCounts (ticsOf df) ≤ (countC (getCellRow df.cols r "tic") (ticsOf df) : ℚ))

lemma select_unfold (df : DF) (tics : List Cell) (h : getColAttr df "tic" = .ok tics) :
    select_equal_rows_stock df = .ok
      { df with
        idx := ((df.idx.zip df.rows).filter (fun p => decide (getCellRow df.cols p.2 "tic" ∈
          (distinctTics tics).filter
            (fun c => decide (meanCounts tics ≤ (countC c tics : ℚ)))))).map Prod.fst
        rows := ((df.idx.zip df.rows).filter (fun p => decide (getCellRow df.cols p.2 "tic" ∈
          (distinctTics tics).filter
            (fun c => decide (meanCounts tics ≤ (countC c tics : ℚ)))))).map Prod.snd } := by
  unfold select_equal_rows_stock
  rw [h]

lemma select_eq (df : DF) (htic : "tic" ∈ df.cols)
    (hna : ∀ r ∈ df.rows, (getCellRow df.cols r "tic").isNA = false) :
    select_equal_rows_stock df = .ok
      { df with
        idx := ((df.idx.zip df.rows).filter (fun p => keepTic df p.2)).map Prod.fst
        rows := ((df.idx.zip df.rows).filter (fun p => keepTic df p.2)).map Prod.snd } := by
  have hfil : ∀ p ∈ df.idx.zip df.rows,
      (decide (getCellRow df.cols p.2 "tic" ∈
        (distinctTics (ticsOf df)).filter
          (fun c => decide (meanCounts (ticsOf df) ≤ (countC c (ticsOf df) : ℚ))))) =
      keepTic df p.2 := by
    intro p hp
    obtain ⟨a, b⟩ := p
    have hrow : b ∈ df.rows := (List.of_mem_zip hp).2
    have hmem : getCellRow df.cols b "tic" ∈ ticsOf df := List.mem_map_of_mem _ hrow
    refine decide_eq_decide.2 ?_
    simp only [keepTic, decide_eq_true_eq]
    constructor
    · intro hin
      have := (List.mem_filter.1 hin).2
      simpa using this
    · intro hle
      refine List.mem_filter.2 ⟨mem_distinctTics_iff.2 ⟨hmem, hna _ hrow⟩, by simpa using hle⟩
  rw [select_unfold df (ticsOf df) (getColAttr_eq_ticsOf htic), List.filter_congr hfil]

lemma distinctTics_count_pos {c : Cell} {l : List Cell} (h : c ∈ distinctTics l) :
    0 < countC c l := by
  have hcl : c ∈ l := (mem_distinctTics_iff.1 h).1
  clear h
  induction l with
  | nil => simp at hcl
  | cons y ys ih =>
    rcases List.mem_cons.1 hcl with h1 | h1
    · simp [countC, h1]
    · have := ih h1
      unfold countC
      omega

lemma meanCounts_le_max (tics : List Cell) (hne : distinctTics tics ≠ []) :
    ∃ c ∈ distinctTics tics, meanCounts tics ≤ (countC c tics : ℚ) := by
  rcases list_exists_max_image (fun c => countC c tics) (distinctTics tics) hne with ⟨a, ha, hmax⟩
  refine ⟨a, ha, ?_⟩
  have hlenpos : (0 : ℚ) < ((distinctTics tics).length : ℚ) := by
    have : 0 < (distinctTics tics).length := List.length_pos.2 hne
    exact_mod_cast this
  have hsum : ((distinctTics tics).map (fun c => (countC c tics : ℚ))).sum ≤
      ((distinctTics tics).length : ℚ) * (countC a tics : ℚ) := by
    have h1 : ((distinctTics tics).map (fun c => (countC c tics : ℚ))).sum ≤
        ((distinctTics tics).map (fun c => (countC c tics : ℚ))).length • (countC a tics : ℚ) := by
      refine List.sum_le_card_nsmul _ _ ?_
      intro x hx
      rcases List.mem_map.1 hx with ⟨c, hc, rfl⟩
      exact_mod_cast hmax c hc
    simpa [nsmul_eq_mul, mul_comm] using h1
  unfold meanCounts
  rw [div_le_iff₀ hlenpos]
  calc ((distinctTics tics).map (fun c => (countC c tics : ℚ))).sum
      ≤ ((distinctTics tics).length : ℚ) * (countC a tics : ℚ) := hsum
    _ = (countC a tics : ℚ) * ((distinctTics tics).length : ℚ) := mul_comm _ _

lemma list_sum_map_const {α : Type} (l : List α) (f : α → ℚ) (k : ℚ)
    (h : ∀ x ∈ l, f x = k) : (l.map f).sum = (l.length : ℚ) * k := by
  induction l with
  | nil => simp
  | cons y ys ih =>
    simp only [List.map_cons, List.sum_cons, List.length_cons]
    rw [h y (List.mem_cons_self _ _), ih (fun x hx => h x (List.mem_cons_of_mem _ hx))]
    push_cast
    ring

lemma meanCounts_eq_of_all_eq {tics : List Cell} {c : Cell} (hc : c ∈ distinctTics tics)
    (heq : ∀ c2 ∈ distinctTics tics, countC c2 tics = countC c tics) :
    meanCounts tics = (countC c tics : ℚ) := by
  have hlenpos : (0 : ℚ) < ((distinctTics tics).length : ℚ) := by
    have h1 : 0 < (distinctTics tics).length := List.length_pos.2 (List.ne_nil_of_mem hc)
    exact_mod_cast h1
  unfold meanCounts
  rw [list_sum_map_const _ _ (countC c tics : ℚ) (fun x hx => by exact_mod_cast heq x hx)]
  field_simp

/-! ### Claims about `select_equal_rows_stock` (C4, C5, C10) -/

/-- Claim C4: for every input table with a `tic` column (index aligned with
the rows, no missing ticker cells), `select_equal_rows_stock` returns
exactly the rows whose ticker's row count is greater than or equal to the
arithmetic mean of the per-distinct-ticker row counts, preserving the
original relative order of the kept rows (the result is a filter of the
original row list). -/
theorem select_equal_rows_stock_keeps_mean_rows (df : DF)
    (htic : "tic" ∈ df.cols)
    (hlen : df.idx.length = df.rows.length)
    (hna : ∀ r ∈ df.rows, (getCellRow df.cols r "tic").isNA = false) :
    ∃ df2, select_equal_rows_stock df = .ok df2 ∧ df2.cols = df.cols ∧
      df2.rows = df.rows.filter (keepTic df) := by
  refine ⟨_, select_eq df htic hna, rfl, ?_⟩
  exact zip_filter_snd (keepTic df) df.idx df.rows hlen

/-- The 10-rows/4-rows table of the scenario in claim C4: two tickers with
counts 10 and 4, mean 7. -/
def df44 : DF :=
  ⟨none, (List.range 14).map (fun i => Cell.num i), ["tic"],
    List.replicate 10 [Cell.str "X"] ++ List.replicate 4 [Cell.str "Y"]⟩

lemma filter_replicate_of_pos {α : Type} {p : α → Bool} {a : α} (h : p a = true) (n : Nat) :
    (List.replicate n a).filter p = List.replicate n a := by
  induction n with
  | zero => rfl
  | succ k ih => simp [List.replicate_succ, List.filter_cons, h, ih]

lemma filter_replicate_of_neg {α : Type} {p : α → Bool} {a : α} (h : p a = false) (n : Nat) :
    (List.replicate n a).filter p = [] := by
  induction n with
  | zero => rfl
  | succ k ih => simp [List.replicate_succ, List.filter_cons, h, ih]

/-- Witness for claim C4, at the scenario of the claim: with per-ticker
counts 10 and 4 (mean 7) only the rows of the count-10 ticker are kept. -/
theorem select_equal_rows_stock_keeps_mean_rows_witness :
    (∃ df2, select_equal_rows_stock df44 = .ok df2 ∧ df2.cols = df44.cols ∧
        df2.rows = df44.rows.filter (keepTic df44)) ∧
      df44.rows.filter (keepTic df44) = List.replicate 10 [Cell.str "X"] := by
  constructor
  · exact select_equal_rows_stock_keeps_mean_rows df44 (by decide) (by decide) (by decide)
  · have hd : distinctTics (ticsOf df44) = [Cell.str "X", Cell.str "Y"] := by decide
    have hcX : countC (Cell.str "X") (ticsOf df44) = 10 := by decide
    have hcY : countC (Cell.str "Y") (ticsOf df44) = 4 := by decide
    have hm : meanCounts (ticsOf df44) = 7 := by
      unfold meanCounts
      rw [hd]
      simp only [List.map_cons, List.map_nil, List.sum_cons, List.sum_nil, List.length_cons,
        List.length_nil, hcX, hcY]
      norm_num
    have hgX : getCellRow df44.cols [Cell.str "X"] "tic" = Cell.str "X" := by decide
    have hgY : getCellRow df44.cols [Cell.str "Y"] "tic" = Cell.str "Y" := by decide
    have hkX : keepTic df44 [Cell.str "X"] = true := by
      unfold keepTic
      rw [hgX, hcX, hm]
      exact decide_eq_true (by norm_num)
    have hkY : keepTic df44 [Cell.str "Y"] = false := by
      unfold keepTic
      rw [hgY, hcY, hm]
      exact decide_eq_false (by norm_num)
    show (List.replicate 10 [Cell.str "X"] ++ List.replicate 4 [Cell.str "Y"]).filter
        (keepTic df44) = List.replicate 10 [Cell.str "X"]
    rw [List.filter_append, filter_replicate_of_pos hkX, filter_replicate_of_neg hkY,
      List.append_nil]

/-- Claim C5: `select_equal_rows_stock` is idempotent on an output table in
which every remaining ticker's row count is at least the mean of the
remaining per-ticker counts: applying it a second time returns the same
table. -/
theorem select_equal_rows_stock_idem (df s : DF)
    (h : select_equal_rows_stock df = .ok s)
    (hall : ∀ c ∈ distinctTics (ticsOf s), meanCounts (ticsOf s) ≤ (countC c (ticsOf s) : ℚ)) :
    select_equal_rows_stock s = .ok s := by
  cases hg : getColAttr df "tic" with
  | error e =>
    unfold select_equal_rows_stock at h
    rw [hg] at h
    exact absurd h (by simp)
  | ok tics =>
    have hmemdf : "tic" ∈ df.cols := by
      unfold getColAttr at hg
      cases hfi : findIdx "tic" df.cols with
      | none => rw [hfi] at hg; exact absurd hg (by simp)
      | some i => exact mem_of_findIdx_some hfi
    rw [select_unfold df tics hg] at h
    injection h with h2
    subst h2
    set L := (distinctTics tics).filter
      (fun c => decide (meanCounts tics ≤ (countC c tics : ℚ))) with hL
    set pairs := (df.idx.zip df.rows).filter
      (fun p => decide (getCellRow df.cols p.2 "tic" ∈ L)) with hpairs
    set s := { df with idx := pairs.map Prod.fst, rows := pairs.map Prod.snd } with hs
    have hcols : s.cols = df.cols := rfl
    have hrows : s.rows = pairs.map Prod.snd := rfl
    have hticS : "tic" ∈ s.cols := hmemdf
    have hrowmem : ∀ r ∈ s.rows, getCellRow s.cols r "tic" ∈ distinctTics tics := by
      intro r hr
      rw [hrows] at hr
      rcases List.mem_map.1 hr with ⟨p, hp, rfl⟩
      have hpred := (List.mem_filter.1 hp).2
      have hmemL : getCellRow df.cols p.2 "tic" ∈ L := of_decide_eq_true hpred
      exact (List.mem_filter.1 hmemL).1
    have hnaS : ∀ r ∈ s.rows, (getCellRow s.cols r "tic").isNA = false := by
      intro r hr
      exact (mem_distinctTics_iff.1 (hrowmem r hr)).2
    rw [select_eq s hticS hnaS]
    have hkeep : ∀ p ∈ s.idx.zip s.rows, (fun p => keepTic s p.2) p = true := by
      intro p hp
      have hrow : p.2 ∈ s.rows := (List.of_mem_zip hp).2
      have hmem : getCellRow s.cols p.2 "tic" ∈ distinctTics (ticsOf s) :=
        mem_distinctTics_iff.2 ⟨List.mem_map_of_mem _ hrow, hnaS _ hrow⟩
      unfold keepTic
      exact decide_eq_true (hall _ hmem)
    have hlenS : s.idx.length = s.rows.length := by
      rw [hrows]
      show (pairs.map Prod.fst).length = (pairs.map Prod.snd).length
      simp
    rw [List.filter_eq_self.2 hkeep, List.map_fst_zip _ _ (le_of_eq hlenS),
      List.map_snd_zip _ _ (le_of_eq hlenS.symm)]

/-- A two-ticker table with one row each: every ticker meets the mean. -/
def df55 : DF := ⟨none, [Cell.num 0, Cell.num 1], ["tic"], [[Cell.str "X"], [Cell.str "Y"]]⟩

/-- Witness for claim C5: on a table whose two tickers both meet the
mean-count threshold, applying the filter returns the table unchanged. -/
theorem select_equal_rows_stock_idem_witness : select_equal_rows_stock df55 = .ok df55 := by
  have hd : distinctTics (ticsOf df55) = [Cell.str "X", Cell.str "Y"] := by decide
  have hcX : countC (Cell.str "X") (ticsOf df55) = 1 := by decide
  have hcY : countC (Cell.str "Y") (ticsOf df55) = 1 := by decide
  have hm : meanCounts (ticsOf df55) = 1 := by
    unfold meanCounts
    rw [hd]
    simp only [List.map_cons, List.map_nil, List.sum_cons, List.sum_nil, List.length_cons,
      List.length_nil, hcX, hcY]
    norm_num
  have h55 : select_equal_rows_stock df55 = .ok df55 := by
    rw [select_eq df55 (by decide) (by decide)]
    have hk : ∀ p ∈ df55.idx.zip df55.rows, (fun p => keepTic df55 p.2) p = true := by
      intro p hp
      have hzip : df55.idx.zip df55.rows =
          [(Cell.num 0, [Cell.str "X"]), (Cell.num 1, [Cell.str "Y"])] := rfl
      rw [hzip] at hp
      have hX : keepTic df55 [Cell.str "X"] = true := by
        unfold keepTic
        have hgX : getCellRow df55.cols [Cell.str "X"] "tic" = Cell.str "X" := by decide
        rw [hgX, hcX, hm]
        exact decide_eq_true (by norm_num)
      have hY : keepTic df55 [Cell.str "Y"] = true := by
        unfold keepTic
        have hgY : getCellRow df55.cols [Cell.str "Y"] "tic" = Cell.str "Y" := by decide
        rw [hgY, hcY, hm]
        exact decide_eq_true (by norm_num)
      rcases List.mem_cons.1 hp with h1 | h1
      · rw [h1]; exact hX
      · rcases List.mem_cons.1 h1 with h2 | h2
        · rw [h2]; exact hY
        · simp at h2
    rw [List.filter_eq_self.2 hk]
    rfl
  refine select_equal_rows_stock_idem df55 df55 h55 ?_
  intro c hc
  rw [hm, hd] at *
  rcases List.mem_cons.1 hc with h1 | h1
  · rw [h1, hcX]; norm_num
  · rcases List.mem_cons.1 h1 with h2 | h2
    · rw [h2, hcY]; norm_num
    · simp at h2

set_option maxHeartbeats 1000000 in
/-- Claim C10: on every non-empty table with a `tic` column,
`select_equal_rows_stock` keeps at least the rows of a ticker of maximal
count (the maximum is at least the mean), so the result is non-empty; and
when all distinct tickers have equal row counts every row is kept. -/
theorem select_equal_rows_stock_nonempty (df : DF)
    (htic : "tic" ∈ df.cols)
    (hlen : df.idx.length = df.rows.length)
    (hne : df.rows ≠ [])
    (hna : ∀ r ∈ df.rows, (getCellRow df.cols r "tic").isNA = false) :
    ∃ s, select_equal_rows_stock df = .ok s ∧ s.rows ≠ [] ∧
      ((∀ c ∈ distinctTics (ticsOf df), ∀ c2 ∈ distinctTics (ticsOf df),
          countC c (ticsOf df) = countC c2 (ticsOf df)) →
        s.rows = df.rows ∧ s.idx = df.idx) := by
  refine ⟨_, select_eq df htic hna, ?_, ?_⟩
  · show ((df.idx.zip df.rows).filter (fun p => keepTic df p.2)).map Prod.snd ≠ []
    obtain ⟨r0, hr0⟩ := List.exists_mem_of_ne_nil df.rows hne
    have hdne : distinctTics (ticsOf df) ≠ [] :=
      List.ne_nil_of_mem (mem_distinctTics_iff.2 ⟨List.mem_map_of_mem _ hr0, hna _ hr0⟩)
    obtain ⟨cm, hcm, hcmle⟩ := meanCounts_le_max (ticsOf df) hdne
    obtain ⟨rm, hrm, hfeq⟩ := List.mem_map.1 ((mem_distinctTics_iff.1 hcm).1)
    obtain ⟨a, ha⟩ := exists_pair_mem_zip_of_mem_snd df.idx df.rows hlen hrm
    have hkm : keepTic df rm = true := by
      unfold keepTic
      rw [hfeq]
      exact decide_eq_true hcmle
    have hmemf : (a, rm) ∈ (df.idx.zip df.rows).filter (fun p => keepTic df p.2) :=
      List.mem_filter.2 ⟨ha, hkm⟩
    exact List.ne_nil_of_mem (List.mem_map_of_mem Prod.snd hmemf)
  · intro hcnt
    have hk : ∀ p ∈ df.idx.zip df.rows, (fun p => keepTic df p.2) p = true := by
      intro p hp
      have hrow : p.2 ∈ df.rows := (List.of_mem_zip hp).2
      have hmem : getCellRow df.cols p.2 "tic" ∈ distinctTics (ticsOf df) :=
        mem_distinctTics_iff.2 ⟨List.mem_map_of_mem _ hrow, hna _ hrow⟩
      have hmean := meanCounts_eq_of_all_eq hmem (fun c2 hc2 => hcnt c2 hc2 _ hmem)
      unfold keepTic
      rw [hmean]
      exact decide_eq_true le_rfl
    constructor
    · show ((df.idx.zip df.rows).filter (fun p => keepTic df p.2)).map Prod.snd = df.rows
      rw [List.filter_eq_self.2 hk, List.map_snd_zip _ _ (le_of_eq hlen.symm)]
    · show ((df.idx.zip df.rows).filter (fun p => keepTic df p.2)).map Prod.fst = df.idx
      rw [List.filter_eq_self.2 hk, List.map_fst_zip _ _ (le_of_eq hlen)]

/-- A one-row, one-ticker table. -/
def dfX1 : DF := ⟨none, [Cell.num 0], ["tic"], [[Cell.str "X"]]⟩

/-- Witness for claim C10, on a non-empty one-ticker table. -/
theorem select_equal_rows_stock_nonempty_witness :
    ∃ s, select_equal_rows_stock dfX1 = .ok s ∧ s.rows ≠ [] ∧
      ((∀ c ∈ distinctTics (ticsOf dfX1), ∀ c2 ∈ distinctTics (ticsOf dfX1),
          countC c (ticsOf dfX1) = countC c2 (ticsOf dfX1)) →
        s.rows = dfX1.rows ∧ s.idx = dfX1.idx) :=
  select_equal_rows_stock_nonempty dfX1 (by decide) (by decide) (by decide) (by decide)

/-! ### Lemmas for the fetch pipeline -/

/-- Concatenation of the images of the elements of a list. -/
def catMap {α β : Type} (f : α → List β) : List α → List β
  | [] => []
  | x :: xs => f x ++ catMap f xs

lemma mem_catMap {α β : Type} {f : α → List β} {b : β} :
    ∀ {ts : List α}, b ∈ catMap f ts → ∃ t ∈ ts, b ∈ f t := by
  intro ts
  induction ts with
  | nil => intro h; simp [catMap] at h
  | cons x xs ih =>
    intro h
    rcases List.mem_append.1 h with h1 | h1
    · exact ⟨x, List.mem_cons_self _ _, h1⟩
    · rcases ih h1 with ⟨t, ht, hb⟩
      exact ⟨t, List.mem_cons_of_mem _ ht, hb⟩

lemma catMap_zip {α β γ : Type} {f : α → List β} {g : α → List γ} :
    ∀ {ts : List α}, (∀ t ∈ ts, (f t).length = (g t).length) →
      (catMap f ts).zip (catMap g ts) = catMap (fun t => (f t).zip (g t)) ts := by
  intro ts
  induction ts with
  | nil => intro _; rfl
  | cons x xs ih =>
    intro h
    show ((f x ++ catMap f xs).zip (g x ++ catMap g xs)) = _
    rw [List.zip_append (h x (List.mem_cons_self _ _)),
      ih (fun t ht => h t (List.mem_cons_of_mem _ ht))]
    rfl

lemma catMap_length_eq {α β γ : Type} {f : α → List β} {g : α → List γ} :
    ∀ {ts : List α}, (∀ t ∈ ts, (f t).length = (g t).length) →
      (catMap f ts).length = (catMap g ts).length := by
  intro ts
  induction ts with
  | nil => intro _; rfl
  | cons x xs ih =>
    intro h
    show (f x ++ catMap f xs).length = (g x ++ catMap g xs).length
    rw [List.length_append, List.length_append, h x (List.mem_cons_self _ _),
      ih (fun t ht => h t (List.mem_cons_of_mem _ ht))]

lemma getCellRow_head (c : String) (cols : List String) (x : Cell) (xs : List Cell) :
    getCellRow (c :: cols) (x :: xs) c = x := by
  simp [getCellRow, findIdx]

lemma getCellRow_shift {c c0 : String} (h : c0 ≠ c) (cols : List String)
    (x : Cell) (xs : List Cell) :
    getCellRow (c0 :: cols) (x :: xs) c = getCellRow cols xs c := by
  unfold getCellRow
  show (match (if c0 = c then some 0 else (findIdx c cols).map (· + 1)) with
    | some i => (x :: xs).getD i Cell.na
    | none => Cell.na) = _
  rw [if_neg h]
  cases hfi : findIdx c cols with
  | none => simp
  | some i => simp

lemma getCellRow_self : ∀ (cols : List String), cols.Nodup →
    ∀ (r : List Cell), r.length = cols.length →
      cols.map (fun c => getCellRow cols r c) = r := by
  intro cols
  induction cols with
  | nil =>
    intro _ r hr
    simp at hr
    simp [hr]
  | cons c0 cs ih =>
    intro hnd r hr
    cases r with
    | nil => simp at hr
    | cons x xs =>
      have hnotmem : c0 ∉ cs := (List.nodup_cons.1 hnd).1
      have hndtail : cs.Nodup := (List.nodup_cons.1 hnd).2
      show getCellRow (c0 :: cs) (x :: xs) c0 ::
        cs.map (fun c => getCellRow (c0 :: cs) (x :: xs) c) = x :: xs
      rw [getCellRow_head]
      have hmapeq : cs.map (fun c => getCellRow (c0 :: cs) (x :: xs) c) =
          cs.map (fun c => getCellRow cs xs c) := by
        refine List.map_congr_left fun c hc => ?_
        refine getCellRow_shift (fun he => hnotmem ?_) cs x xs
        rw [he]
        exact hc
      rw [hmapeq, ih hndtail xs (by simpa using hr)]

lemma map_mem_id {α : Type} {f : α → α} : ∀ {l : List α}, (∀ x ∈ l, f x = x) → l.map f = l := by
  intro l
  induction l with
  | nil => intro _; rfl
  | cons x xs ih =>
    intro h
    rw [List.map_cons, h x (List.mem_cons_self _ _), ih (fun y hy => h y (List.mem_cons_of_mem _ hy))]

lemma append_cols_eq (a b : DF) (hab : b.cols = a.cols) (hnd : a.cols.Nodup)
    (hbr : ∀ r ∈ b.rows, r.length = a.cols.length) :
    a.append b = ⟨if a.idx.isEmpty then b.idxName else a.idxName,
      a.idx ++ b.idx, a.cols, a.rows ++ b.rows⟩ := by
  unfold DF.append
  have hextra : b.cols.filter (fun c => decide (c ∉ a.cols)) = [] := by
    rw [List.filter_eq_nil_iff]
    intro c hc
    have hmem : c ∈ a.cols := hab ▸ hc
    simp [hmem]
  rw [hextra]
  simp only [List.append_nil, List.length_nil, List.replicate_zero, List.map_id']
  refine congrArg (fun z => DF.mk (if a.idx.isEmpty then b.idxName else a.idxName)
    (a.idx ++ b.idx) a.cols (a.rows ++ z)) (map_mem_id fun r hr => ?_)
  have hlen : r.length = b.cols.length := by rw [hab]; exact hbr r hr
  calc a.cols.map (fun c => getCellRow b.cols r c)
      = b.cols.map (fun c => getCellRow b.cols r c) := by rw [hab]
    _ = r := getCellRow_self b.cols (hab ▸ hnd) r hlen

lemma append_empty_left (b : DF) (hnd : b.cols.Nodup)
    (hbr : ∀ r ∈ b.rows, r.length = b.cols.length) : emptyDF.append b = b := by
  unfold DF.append emptyDF
  have hextra : b.cols.filter (fun c => decide (c ∉ ([] : List String))) = b.cols :=
    List.filter_eq_self.2 (fun c _ => by simp)
  simp only
  rw [hextra]
  simp only [List.nil_append, List.map_nil, List.isEmpty_nil, if_true]
  have hrows : b.rows.map (fun r => b.cols.map (fun c => getCellRow b.cols r c)) = b.rows := by
    refine map_mem_id fun r hr => ?_
    exact getCellRow_self b.cols hnd r (hbr r hr)
  rw [hrows]

/-- Did the per-ticker future complete without an exception? -/
def isOkE : Except Exc DF → Bool
  | .ok _ => true
  | .error _ => false

/-- The tagged frame returned by a successful per-ticker task (and a dummy
value on failed tasks, never used there). -/
def wOf (oracle : String → Except Exc DF) (t : String) : DF :=
  match yf_downloader oracle t with
  | .ok w => w
  | .error _ => emptyDF

/-- The tickers of the completion order whose task succeeded. -/
def succTics (oracle : String → Except Exc DF) (order : List String) : List String :=
  order.filter (fun t => isOkE (yf_downloader oracle t))

/-- Shape of a successfully tagged frame: `Date` index of well-formed
timestamps, the six OHLCV columns plus `tic`, rows of seven cells. -/
def StdTagged (w : DF) : Prop :=
  w.idxName = some "Date" ∧ w.cols = std7 ∧ (∀ r ∈ w.rows, r.length = 7) ∧
    w.idx.length = w.rows.length ∧ (∀ c ∈ w.idx, isWfDate c = true)

lemma isStdVendor_spec {v : DF} (hv : isStdVendor v = true) :
    v.idxName = some "Date" ∧ v.cols = stdCols ∧ (∀ r ∈ v.rows, r.length = 6) ∧
      v.idx.length = v.rows.length ∧ (∀ c ∈ v.idx, isWfDate c = true) := by
  unfold isStdVendor at hv
  simp only [Bool.and_eq_true, decide_eq_true_eq, List.all_eq_true] at hv
  exact ⟨hv.1.1.1.1, hv.1.1.1.2, fun r hr => by simpa using hv.1.1.2 r hr, hv.1.2,
    fun c hc => hv.2 c hc⟩

lemma tagged_eq_of_std {v : DF} (hv : isStdVendor v = true) (t : String) :
    setColScalar v "tic" (Cell.str t) =
      ⟨some "Date", v.idx, std7, v.rows.map (fun r => r ++ [Cell.str t])⟩ := by
  obtain ⟨h1, h2, _, _, _⟩ := isStdVendor_spec hv
  have hfi : findIdx "tic" v.cols = none := by rw [h2]; decide
  unfold setColScalar
  rw [hfi, h1, h2]
  rfl

lemma tagged_std_of_std {v : DF} (hv : isStdVendor v = true) (t : String) :
    StdTagged (setColScalar v "tic" (Cell.str t)) := by
  obtain ⟨_, _, h3, h4, h5⟩ := isStdVendor_spec hv
  rw [tagged_eq_of_std hv t]
  refine ⟨rfl, rfl, ?_, by simpa using h4, h5⟩
  intro r hr
  rcases List.mem_map.1 hr with ⟨r0, hr0, rfl⟩
  simp [h3 r0 hr0]

lemma fanInLoop_all_ok (oracle : String → Except Exc DF) (w : String → DF) :
    ∀ (ts : List String), (∀ t ∈ ts, yf_downloader oracle t = .ok (w t)) →
      ∀ (acc : DF) (v : Option DF) (ds : List Diag),
        fanInLoop oracle ts acc v ds =
          .ok (ts.foldl (fun a t => a.append (w t)) acc, ds) := by
  intro ts
  induction ts with
  | nil => intro _ acc v ds; rfl
  | cons t ts ih =>
    intro h acc v ds
    have ht := h t (List.mem_cons_self _ _)
    show (match yf_downloader oracle t with
      | .ok data => fanInLoop oracle ts (acc.append data) (some data) ds
      | .error exc =>
        match v with
        | none => .error (.unboundLocalError "data")
        | some d => fanInLoop oracle ts acc v (ds ++ [Diag.mk d exc])) = _
    rw [ht, List.foldl_cons]
    exact ih (fun u hu => h u (List.mem_cons_of_mem _ hu)) (acc.append (w t)) (some (w t)) ds

lemma fanInLoop_ok_acc (oracle : String → Except Exc DF) :
    ∀ (ts : List String) (acc : DF) (v : Option DF) (ds : List Diag) (r : DF)
      (ds2 : List Diag),
      fanInLoop oracle ts acc v ds = .ok (r, ds2) →
      r = (ts.filter (fun t => isOkE (yf_downloader oracle t))).foldl
        (fun a t => a.append (wOf oracle t)) acc := by
  intro ts
  induction ts with
  | nil =>
    intro acc v ds r ds2 h
    have h2 : acc = r ∧ ds = ds2 := by
      have := h
      simp only [fanInLoop] at this
      injection this with h3
      exact ⟨congrArg Prod.fst h3, congrArg Prod.snd h3⟩
    rw [← h2.1]
    rfl
  | cons t ts ih =>
    intro acc v ds r ds2 h
    simp only [fanInLoop] at h
    cases hy : yf_downloader oracle t with
    | ok wt =>
      rw [hy] at h
      have hr := ih _ _ _ _ _ h
      have hfil : (t :: ts).filter (fun u => isOkE (yf_downloader oracle u)) =
          t :: ts.filter (fun u => isOkE (yf_downloader oracle u)) := by
        simp [List.filter_cons, hy, isOkE]
      rw [hfil, List.foldl_cons]
      have hw : wOf oracle t = wt := by unfold wOf; rw [hy]
      rw [hw]
      exact hr
    | error e =>
      rw [hy] at h
      cases v with
      | none => exact absurd h (by simp)
      | some d =>
        have hr := ih _ _ _ _ _ h
        have hfil : (t :: ts).filter (fun u => isOkE (yf_downloader oracle u)) =
            ts.filter (fun u => isOkE (yf_downloader oracle u)) := by
          simp [List.filter_cons, hy, isOkE]
        rw [hfil]
        exact hr

lemma fanInLoop_fail_first (oracle : String → Except Exc DF) (t : String) (ts : List String)
    (e : Exc) (h : yf_downloader oracle t = .error e) :
    fanInLoop oracle (t :: ts) emptyDF none [] = .error (.unboundLocalError "data") := by
  show (match yf_downloader oracle t with
    | .ok data => fanInLoop oracle ts (emptyDF.append data) (some data) []
    | .error exc =>
      match (none : Option DF) with
      | none => .error (.unboundLocalError "data")
      | some d => fanInLoop oracle ts emptyDF none ([] ++ [Diag.mk d exc])) = _
  rw [h]

lemma std7_nodup : std7.Nodup := by decide

lemma foldl_append_std (oracle : String → Except Exc DF) :
    ∀ (ts : List String), (∀ t ∈ ts, StdTagged (wOf oracle t)) →
      ∀ (acc : DF), acc.idxName = some "Date" → acc.cols = std7 →
        (∀ r ∈ acc.rows, r.length = 7) →
        ts.foldl (fun a t => a.append (wOf oracle t)) acc =
          ⟨some "Date", acc.idx ++ catMap (fun t => (wOf oracle t).idx) ts, std7,
            acc.rows ++ catMap (fun t => (wOf oracle t).rows) ts⟩ := by
  intro ts
  induction ts with
  | nil =>
    intro _ acc h1 h2 _
    obtain ⟨n, i, c, r⟩ := acc
    simp only at h1 h2
    rw [h1, h2]
    simp [catMap]
  | cons t ts ih =>
    intro h acc haccName haccCols haccRows
    obtain ⟨ht1, ht2, ht3, ht4, ht5⟩ := h t (List.mem_cons_self _ _)
    have happ : acc.append (wOf oracle t) = ⟨some "Date",
        acc.idx ++ (wOf oracle t).idx, acc.cols, acc.rows ++ (wOf oracle t).rows⟩ := by
      rw [append_cols_eq acc (wOf oracle t) (ht2.trans haccCols.symm)
        (haccCols ▸ std7_nodup)
        (fun r hr => by rw [haccCols]; exact (ht3 r hr).trans (by decide))]
      rw [ht1, haccName, ite_self]
    rw [List.foldl_cons, happ]
    rw [ih (fun u hu => h u (List.mem_cons_of_mem _ hu)) _ rfl (by rw [haccCols]) ?_]
    · show DF.mk _ _ _ _ = DF.mk _ _ _ _
      rw [show catMap (fun u => (wOf oracle u).idx) (t :: ts) =
          (wOf oracle t).idx ++ catMap (fun u => (wOf oracle u).idx) ts from rfl,
        show catMap (fun u => (wOf oracle u).rows) (t :: ts) =
          (wOf oracle t).rows ++ catMap (fun u => (wOf oracle u).rows) ts from rfl,
        List.append_assoc, List.append_assoc]
    · intro r hr
      rcases List.mem_append.1 hr with h1 | h1
      · exact haccRows r h1
      · exact ht3 r h1

lemma foldl_from_empty (oracle : String → Except Exc DF) (ts : List String) (hne : ts ≠ [])
    (h : ∀ t ∈ ts, StdTagged (wOf oracle t)) :
    ts.foldl (fun a t => a.append (wOf oracle t)) emptyDF =
      ⟨some "Date", catMap (fun t => (wOf oracle t).idx) ts, std7,
        catMap (fun t => (wOf oracle t).rows) ts⟩ := by
  cases ts with
  | nil => exact absurd rfl hne
  | cons t ts =>
    obtain ⟨ht1, ht2, ht3, ht4, ht5⟩ := h t (List.mem_cons_self _ _)
    have hemp : emptyDF.append (wOf oracle t) = wOf oracle t :=
      append_empty_left _ (ht2 ▸ std7_nodup)
        (fun r hr => by rw [ht2]; exact (ht3 r hr).trans (by decide))
    rw [List.foldl_cons, hemp]
    rw [foldl_append_std oracle ts (fun u hu => h u (List.mem_cons_of_mem _ hu))
      (wOf oracle t) ht1 ht2 ht3]
    rfl

/-- The `strftime` image of a cell (total version, used to state what the
pipeline produces on well-formed timestamp cells). -/
def fmtCell : Cell → Cell
  | .date y m d => .str (formatDate y m d)
  | c => c

/-- What the post-processing makes of one `Date`-indexed seven-cell tagged
row: after the positional rename, `close` (position 4 of the 8-column frame)
is overwritten with `adjcp` (position 5), `adjcp` is dropped, and the date
index cell is formatted. -/
def postRow (p : Cell × List Cell) : List Cell :=
  fmtCell p.1 :: ((p.2.set 3 (p.2.getD 4 Cell.na)).eraseIdx 4)

/-- The `dropna` criterion: no missing value in the row. -/
def keepRow (r : List Cell) : Bool := !(r.any Cell.isNA)

lemma zip_map_same {α β γ : Type} (f : α → β) (g : α → γ) :
    ∀ (l : List α), (l.map f).zip (l.map g) = l.map (fun x => (f x, g x)) := by
  intro l
  induction l with
  | nil => rfl
  | cons x xs ih => simp only [List.map_cons, List.zip_cons_cons, ih]

lemma mapStrftime_ok : ∀ {l : List Cell}, (∀ c ∈ l, isWfDate c = true) →
    mapStrftime l = .ok (l.map fmtCell) := by
  intro l
  induction l with
  | nil => intro _; rfl
  | cons c cs ih =>
    intro h
    have hc := h c (List.mem_cons_self _ _)
    obtain ⟨y, m, d, rfl⟩ : ∃ y m d, c = Cell.date y m d := by
      cases c with
      | na => simp [isWfDate] at hc
      | date y m d => exact ⟨y, m, d, rfl⟩
      | num q => simp [isWfDate] at hc
      | str s => simp [isWfDate] at hc
    show ((match strftime (Cell.date y m d) with
      | Except.error e => Except.error e
      | Except.ok c2 =>
        match mapStrftime cs with
        | Except.error e => Except.error e
        | Except.ok cs2 => Except.ok (c2 :: cs2)) : Except Exc (List Cell)) =
      Except.ok ((Cell.date y m d :: cs).map fmtCell)
    rw [show strftime (Cell.date y m d) = .ok (.str (formatDate y m d)) from rfl,
      ih (fun u hu => h u (List.mem_cons_of_mem _ hu))]
    rfl

lemma set_columns_ok {df : DF} {cs : List String} (h : cs.length = df.cols.length) :
    set_columns df cs = .ok { df with cols := cs } := by
  unfold set_columns
  rw [if_pos h]

lemma getColBracket_at {df : DF} {c : String} {i : Nat} (h : findIdx c df.cols = some i) :
    getColBracket df c = .ok (df.rows.map (fun r => r.getD i Cell.na)) := by
  unfold getColBracket
  rw [h]

lemma getColAttr_at {df : DF} {c : String} {i : Nat} (h : findIdx c df.cols = some i) :
    getColAttr df c = .ok (df.rows.map (fun r => r.getD i Cell.na)) := by
  unfold getColAttr
  rw [h]

lemma setColList_at {df : DF} {c : String} {i : Nat} (h : findIdx c df.cols = some i)
    (vs : List Cell) :
    setColList df c vs = { df with rows := (df.rows.zip vs).map (fun p => p.1.set i p.2) } := by
  unfold setColList
  rw [h]

lemma drop_col_at {df : DF} {c : String} {i : Nat} (h : findIdx c df.cols = some i) :
    drop_col df c =
      .ok { df with cols := df.cols.eraseIdx i, rows := df.rows.map (fun r => r.eraseIdx i) } := by
  unfold drop_col
  rw [h]

lemma zip_map_fst {α β : Type} : ∀ (a : List α) (b : List β), a.length = b.length →
    (a.zip b).map (fun p => p.1) = a := by
  intro a
  induction a with
  | nil => intro b _; rfl
  | cons x xs ih =>
    intro b hb
    cases b with
    | nil => simp at hb
    | cons y ys =>
      simp only [List.zip_cons_cons, List.map_cons]
      rw [ih ys (by simpa using hb)]

lemma zip_map_snd {α β : Type} : ∀ (a : List α) (b : List β), a.length = b.length →
    (a.zip b).map (fun p => p.2) = b := by
  intro a
  induction a with
  | nil =>
    intro b hb
    cases b with
    | nil => rfl
    | cons y ys => simp at hb
  | cons x xs ih =>
    intro b hb
    cases b with
    | nil => simp at hb
    | cons y ys =>
      simp only [List.zip_cons_cons, List.map_cons]
      rw [ih ys (by simpa using hb)]

lemma zip_self_map {α β γ : Type} (f : α → β) (g : α × β → γ) :
    ∀ (l : List α), (l.zip (l.map f)).map g = l.map (fun x => g (x, f x)) := by
  intro l
  induction l with
  | nil => rfl
  | cons x xs ih => simp only [List.map_cons, List.zip_cons_cons, ih]

lemma renameBlock_std (df : DF) (hcols : df.cols = "Date" :: std7) :
    renameBlock df = .ok ⟨df.idxName, df.idx, final7,
      df.rows.map (fun r => (r.set 4 (r.getD 5 Cell.na)).eraseIdx 5)⟩ := by
  obtain ⟨n, ix, c, rs⟩ := df
  simp only at hcols
  subst hcols
  have hred : renameBlock ⟨n, ix, "Date" :: std7, rs⟩ = .ok ⟨n, ix, final7,
      ((rs.zip (rs.map (fun r => r.getD 5 Cell.na))).map (fun p => p.1.set 4 p.2)).map
        (fun r => r.eraseIdx 5)⟩ := rfl
  rw [hred, zip_self_map, List.map_map]
  rfl

lemma tryRename_std (df : DF) (hcols : df.cols = "Date" :: std7) :
    tryRename df = .ok ⟨df.idxName, df.idx, final7,
      df.rows.map (fun r => (r.set 4 (r.getD 5 Cell.na)).eraseIdx 5)⟩ := by
  unfold tryRename
  rw [renameBlock_std df hcols]

lemma postPipeline_eq {df0 df4 : DF} {dates newDates : List Cell}
    (h1 : tryRename (reset_index df0) = .ok df4)
    (h2 : getColAttr df4 "date" = .ok dates)
    (h3 : mapStrftime dates = .ok newDates) :
    postPipeline df0 = .ok (reset_index_drop (dropna (setColList df4 "date" newDates))) := by
  unfold postPipeline
  rw [h1]
  dsimp only
  rw [h2]
  dsimp only
  rw [h3]

lemma postPipeline_std (I : List Cell) (R : List (List Cell))
    (hlen : I.length = R.length) (hI : ∀ c ∈ I, isWfDate c = true) :
    postPipeline ⟨some "Date", I, std7, R⟩ = .ok
      ⟨none, rangeIdx (((I.zip R).map postRow).filter keepRow).length,
        final7, ((I.zip R).map postRow).filter keepRow⟩ := by
  have hA : tryRename (reset_index ⟨some "Date", I, std7, R⟩) =
      .ok ⟨none, rangeIdx R.length, final7,
        (I.zip R).map (fun p => p.1 :: ((p.2.set 3 (p.2.getD 4 Cell.na)).eraseIdx 4))⟩ := by
    rw [tryRename_std (reset_index ⟨some "Date", I, std7, R⟩) rfl]
    rw [show (reset_index (⟨some "Date", I, std7, R⟩ : DF)).rows =
      (I.zip R).map (fun p => p.1 :: p.2) from rfl, List.map_map]
    rfl
  have hfd : findIdx "date" ((⟨none, rangeIdx R.length, final7,
      (I.zip R).map (fun p => p.1 :: ((p.2.set 3 (p.2.getD 4 Cell.na)).eraseIdx 4))⟩ : DF)).cols =
      some 0 := rfl
  have hd0 : ((I.zip R).map
      (fun p => p.1 :: ((p.2.set 3 (p.2.getD 4 Cell.na)).eraseIdx 4))).map
        (fun r => r.getD 0 Cell.na) = I := by
    rw [List.map_map]
    show (I.zip R).map (fun p => p.1) = I
    exact zip_map_fst I R hlen
  have h2 : getColAttr (⟨none, rangeIdx R.length, final7,
      (I.zip R).map (fun p => p.1 :: ((p.2.set 3 (p.2.getD 4 Cell.na)).eraseIdx 4))⟩ : DF)
      "date" = .ok I := by
    rw [getColAttr_at hfd]
    dsimp only
    rw [hd0]
  rw [postPipeline_eq hA h2 (mapStrftime_ok hI)]
  rw [setColList_at hfd]
  dsimp only
  have hIfst : I.map fmtCell = (I.zip R).map (fun p => fmtCell p.1) := by
    conv_lhs => rw [← zip_map_fst I R hlen]
    rw [List.map_map]
    rfl
  rw [hIfst]
  have hrows5 : (((I.zip R).map
      (fun p => p.1 :: ((p.2.set 3 (p.2.getD 4 Cell.na)).eraseIdx 4))).zip
        ((I.zip R).map (fun p => fmtCell p.1))).map (fun p => p.1.set 0 p.2) =
      (I.zip R).map postRow := by
    rw [zip_map_same, List.map_map]
    rfl
  rw [hrows5]
  have hlen5 : (rangeIdx R.length).length = ((I.zip R).map postRow).length := by
    rw [rangeIdx, List.length_map, List.length_range, List.length_map, List.length_zip,
      hlen, Nat.min_self]
  have hdrop : dropna ⟨none, rangeIdx R.length, final7, (I.zip R).map postRow⟩ =
      ⟨none, (((rangeIdx R.length).zip ((I.zip R).map postRow)).filter
          (fun p => keepRow p.2)).map Prod.fst, final7,
        ((I.zip R).map postRow).filter keepRow⟩ := by
    show DF.mk none ((((rangeIdx R.length).zip ((I.zip R).map postRow)).filter
        (fun p => keepRow p.2)).map Prod.fst) final7
      ((((rangeIdx R.length).zip ((I.zip R).map postRow)).filter
        (fun p => keepRow p.2)).map Prod.snd) = _
    rw [zip_filter_snd keepRow _ _ hlen5]
  rw [hdrop]
  rfl

lemma zip_map_right' {α β γ : Type} (f : β → γ) :
    ∀ (a : List α) (b : List β), a.zip (b.map f) = (a.zip b).map (fun q => (q.1, f q.2)) := by
  intro a
  induction a with
  | nil => intro b; rfl
  | cons x xs ih =>
    intro b
    cases b with
    | nil => rfl
    | cons y ys => simp only [List.map_cons, List.zip_cons_cons, ih]

lemma wOf_of_ok {oracle : String → Except Exc DF} {t : String} {v : DF}
    (h : oracle t = .ok v) : wOf oracle t = setColScalar v "tic" (Cell.str t) := by
  unfold wOf yf_downloader
  rw [h]

lemma succ_exists {oracle : String → Except Exc DF} {t : String}
    (h : isOkE (yf_downloader oracle t) = true) : ∃ v, oracle t = .ok v := by
  unfold yf_downloader at h
  cases ho : oracle t with
  | ok v => exact ⟨v, rfl⟩
  | error e => rw [ho] at h; simp [isOkE] at h

lemma fetch_data_charact (oracle : String → Except Exc DF) (order : List String)
    (hstd : ∀ t ∈ order, ∀ v, oracle t = .ok v → isStdVendor v = true)
    (df : DF) (ds : List Diag)
    (hfetch : fetch_data oracle order = .ok (df, ds)) :
    df.cols = final7 ∧
    ∀ row ∈ df.rows, ∃ t, t ∈ order ∧ ∃ v, oracle t = .ok v ∧
      ∃ p, p ∈ v.idx.zip v.rows ∧ row = postRow (p.1, p.2 ++ [Cell.str t]) := by
  unfold fetch_data at hfetch
  cases hfan : fanInLoop oracle order emptyDF none [] with
  | error e =>
    rw [hfan] at hfetch
    dsimp only at hfetch
    exact absurd hfetch (by simp)
  | ok pr =>
    obtain ⟨df0, ds0⟩ := pr
    rw [hfan] at hfetch
    dsimp only at hfetch
    have hacc := fanInLoop_ok_acc oracle order emptyDF none [] df0 ds0 hfan
    have hstdw : ∀ t ∈ order.filter (fun t => isOkE (yf_downloader oracle t)),
        StdTagged (wOf oracle t) := by
      intro t ht
      have htmem : t ∈ order := List.mem_of_mem_filter ht
      have hok : isOkE (yf_downloader oracle t) = true := by
        simpa using List.of_mem_filter ht
      obtain ⟨v, hv⟩ := succ_exists hok
      rw [wOf_of_ok hv]
      exact tagged_std_of_std (hstd t htmem v hv) t
    cases hs : order.filter (fun t => isOkE (yf_downloader oracle t)) with
    | nil =>
      rw [hs, List.foldl_nil] at hacc
      rw [hacc] at hfetch
      rw [show postPipeline emptyDF = .error (.valueError "Length mismatch") from rfl] at hfetch
      exact absurd hfetch (by simp)
    | cons t0 ts0 =>
      rw [foldl_from_empty oracle _ (by rw [hs]; simp) hstdw] at hacc
      subst hacc
      have hlenIR : (catMap (fun t => (wOf oracle t).idx)
            (order.filter (fun t => isOkE (yf_downloader oracle t)))).length =
          (catMap (fun t => (wOf oracle t).rows)
            (order.filter (fun t => isOkE (yf_downloader oracle t)))).length :=
        catMap_length_eq (fun t ht => (hstdw t ht).2.2.2.1)
      have hwf : ∀ c ∈ catMap (fun t => (wOf oracle t).idx)
          (order.filter (fun t => isOkE (yf_downloader oracle t))), isWfDate c = true := by
        intro c hc
        obtain ⟨t, ht, hct⟩ := mem_catMap hc
        exact (hstdw t ht).2.2.2.2 c hct
      rw [postPipeline_std _ _ hlenIR hwf] at hfetch
      dsimp only at hfetch
      injection hfetch with hfe
      rw [Prod.mk.injEq] at hfe
      obtain ⟨hdf, hds⟩ := hfe
      subst hdf
      refine ⟨rfl, ?_⟩
      intro row hrow
      have hrow2 : row ∈ ((catMap (fun t => (wOf oracle t).idx)
          (order.filter (fun t => isOkE (yf_downloader oracle t)))).zip
            (catMap (fun t => (wOf oracle t).rows)
              (order.filter (fun t => isOkE (yf_downloader oracle t))))).map postRow :=
        List.mem_of_mem_filter hrow
      obtain ⟨p, hp, rfl⟩ := List.mem_map.1 hrow2
      rw [catMap_zip (fun t ht => (hstdw t ht).2.2.2.1)] at hp
      obtain ⟨t, ht, hpt⟩ := mem_catMap hp
      have htmem : t ∈ order := List.mem_of_mem_filter ht
      have hok : isOkE (yf_downloader oracle t) = true := by
        simpa using List.of_mem_filter ht
      obtain ⟨v, hv⟩ := succ_exists hok
      refine ⟨t, htmem, v, hv, ?_⟩
      rw [wOf_of_ok hv, tagged_eq_of_std (hstd t htmem v hv) t] at hpt
      dsimp only at hpt
      rw [zip_map_right'] at hpt
      obtain ⟨q, hq, rfl⟩ := List.mem_map.1 hpt
      exact ⟨q, hq, rfl⟩

lemma fetch_data_all_success (oracle : String → Except Exc DF) (order : List String)
    (vd : String → DF) (hne : order ≠ [])
    (hok : ∀ t ∈ order, oracle t = .ok (vd t))
    (hstd : ∀ t ∈ order, isStdVendor (vd t) = true) :
    fetch_data oracle order = .ok
      (⟨none,
        rangeIdx ((((catMap (fun t => (wOf oracle t).idx) order).zip
          (catMap (fun t => (wOf oracle t).rows) order)).map postRow).filter keepRow).length,
        final7,
        (((catMap (fun t => (wOf oracle t).idx) order).zip
          (catMap (fun t => (wOf oracle t).rows) order)).map postRow).filter keepRow⟩, []) := by
  have hyfd : ∀ t ∈ order, yf_downloader oracle t = .ok (wOf oracle t) := by
    intro t ht
    rw [wOf_of_ok (hok t ht)]
    unfold yf_downloader
    rw [hok t ht]
  have hstdw : ∀ t ∈ order, StdTagged (wOf oracle t) := fun t ht => by
    rw [wOf_of_ok (hok t ht)]
    exact tagged_std_of_std (hstd t ht) t
  have hfan := fanInLoop_all_ok oracle (wOf oracle) order hyfd emptyDF none []
  rw [foldl_from_empty oracle order hne hstdw] at hfan
  have hlenIR : (catMap (fun t => (wOf oracle t).idx) order).length =
      (catMap (fun t => (wOf oracle t).rows) order).length :=
    catMap_length_eq (fun t ht => (hstdw t ht).2.2.2.1)
  have hwf : ∀ c ∈ catMap (fun t => (wOf oracle t).idx) order, isWfDate c = true := by
    intro c hc
    obtain ⟨t, ht, hct⟩ := mem_catMap hc
    exact (hstdw t ht).2.2.2.2 c hct
  unfold fetch_data
  rw [hfan]
  dsimp only
  rw [postPipeline_std _ _ hlenIR hwf]

/-- A well-formed vendor frame for one trading day (2020-01-02), with
distinct open/high/low/close/adjusted-close/volume values. -/
def vdfW : DF := ⟨some "Date", [Cell.date 2020 1 2], stdCols,
  [[Cell.num 1, Cell.num 2, Cell.num 0, Cell.num 3, Cell.num 4, Cell.num 5]]⟩

/-- A vendor that succeeds on every ticker with the frame `vdfW`. -/
def oracleW : String → Except Exc DF := fun _ => .ok vdfW

/-- A vendor whose every fetch raises. -/
def oracleFail : String → Except Exc DF := fun _ => .error (.vendorError "connection error")

/-- A vendor that succeeds for `AAA` and raises for every other ticker. -/
def oracleC1 : String → Except Exc DF :=
  fun t => if t = "AAA" then .ok vdfW else .error (.vendorError "no data for ticker")

/-- Claim C1 is refuted by the code (code bug): when the failing future
completes first, the `except` branch's diagnostic `print` reads the local
variable `data` before any assignment, so `fetch_data` aborts with
`UnboundLocalError` instead of omitting the failed ticker; when a success
completes first the call does return the successful ticker's rows. -/
theorem fetch_data_aborts_on_failure_first :
    fetch_data oracleC1 ["BBB", "AAA"] = .error (.unboundLocalError "data") ∧
      ∃ df ds, fetch_data oracleC1 ["AAA", "BBB"] = .ok (df, ds) :=
  ⟨rfl, ⟨_, _, rfl⟩⟩

/-- Counterexample to claim C2: with an empty `ticker_list` the column
rename raises `ValueError` (length mismatch), which is not caught — only
`NotImplementedError` is — so the exception propagates to the caller rather
than the pipeline proceeding with the unrenamed table. -/
theorem fetch_data_empty_raises :
    fetch_data oracleFail [] = .error (.valueError "Length mismatch") := rfl

/-- Claim C2 as amended: whenever the accumulated frame's column count does
not match the fixed assumption (seven data columns, eight after the index
reset), the rename step raises a length-mismatch `ValueError`; the
`except NotImplementedError` handler does not catch it, and `fetch_data`
propagates it to the caller instead of proceeding. -/
theorem fetch_data_rename_mismatch_propagates (oracle : String → Except Exc DF)
    (order : List String) (df0 : DF) (ds : List Diag)
    (h0 : fanInLoop oracle order emptyDF none [] = .ok (df0, ds))
    (hc : df0.cols.length ≠ 7) :
    fetch_data oracle order = .error (.valueError "Length mismatch") := by
  have hlen1 : (reset_index df0).cols.length = df0.cols.length + 1 := by
    unfold reset_index
    simp
  have hneg : ¬(renamedCols.length = (reset_index df0).cols.length) := by
    rw [hlen1, show renamedCols.length = 8 from rfl]
    omega
  have hsc : set_columns (reset_index df0) renamedCols =
      .error (.valueError "Length mismatch") := by
    unfold set_columns
    rw [if_neg hneg]
  have hrb : renameBlock (reset_index df0) = .error (.valueError "Length mismatch") := by
    unfold renameBlock
    rw [hsc]
  have htr : tryRename (reset_index df0) = .error (.valueError "Length mismatch") := by
    unfold tryRename
    rw [hrb]
  have hpp : postPipeline df0 = .error (.valueError "Length mismatch") := by
    unfold postPipeline
    rw [htr]
  unfold fetch_data
  rw [h0]
  dsimp only
  rw [hpp]

/-- Witness for the amended claim C2, at the empty ticker list: the
accumulated frame is the zero-column empty frame and the ValueError
propagates out of `fetch_data`. -/
theorem fetch_data_rename_mismatch_propagates_witness :
    fanInLoop oracleFail [] emptyDF none [] = .ok (emptyDF, []) ∧
      emptyDF.cols.length ≠ 7 ∧
      fetch_data oracleFail [] = .error (.valueError "Length mismatch") :=
  ⟨rfl, by decide,
    fetch_data_rename_mismatch_propagates oracleFail [] emptyDF [] rfl (by decide)⟩

/-- Counterexample to claim C3: when every per-ticker fetch fails (here a
single ticker whose fetch raises), the first completed future's exception
handler itself raises `UnboundLocalError`, so `fetch_data` raises instead
of returning a table. -/
theorem fetch_data_all_fail_raises :
    fetch_data oracleFail ["AAA"] = .error (.unboundLocalError "data") := rfl

/-- Claim C3 as amended: `fetch_data` returns a table (and raises nothing)
for every non-empty completion order in which all per-ticker fetches
succeed with the assumed vendor layout; with an empty `ticker_list`, or
when a fetch failure completes before any success, it raises instead (see
the counterexample and claims C1 and C2). -/
theorem fetch_data_returns_table_on_success (oracle : String → Except Exc DF)
    (order : List String) (vd : String → DF) (hne : order ≠ [])
    (hok : ∀ t ∈ order, oracle t = .ok (vd t))
    (hstd : ∀ t ∈ order, isStdVendor (vd t) = true) :
    ∃ df, fetch_data oracle order = .ok (df, []) :=
  ⟨_, fetch_data_all_success oracle order vd hne hok hstd⟩

/-- Witness for the amended claim C3: a one-ticker all-success run returns
a table with no diagnostics. -/
theorem fetch_data_returns_table_on_success_witness :
    ∃ df, fetch_data oracleW ["AAA"] = .ok (df, []) :=
  fetch_data_returns_table_on_success oracleW ["AAA"] (fun _ => vdfW) (by simp)
    (fun _ _ => rfl) (fun _ _ => by show isStdVendor vdfW = true; decide)

lemma exists_six {l : List Cell} (h : l.length = 6) :
    ∃ a b c d e f, l = [a, b, c, d, e, f] := by
  rcases l with _ | ⟨a, _ | ⟨b, _ | ⟨c, _ | ⟨d, _ | ⟨e, _ | ⟨f, _ | ⟨g, t⟩⟩⟩⟩⟩⟩⟩ <;>
    simp only [List.length_cons, List.length_nil] at h <;> try omega
  exact ⟨a, b, c, d, e, f, rfl⟩

/-- Claim C6: on every successful fetch over standard-layout vendor data,
each result row's `close` cell (position 4) equals the vendor's
adjusted-close cell (position 4 of the six OHLCV cells, `Adj Close`) for
that row's ticker and date, the raw close is never surfaced, the `adjcp`
column is absent, and the columns are exactly
date, open, high, low, close, volume, tic. -/
theorem fetch_data_close_is_adjclose (oracle : String → Except Exc DF)
    (order : List String) (df : DF) (ds : List Diag)
    (hstd : ∀ t ∈ order, ∀ v, oracle t = .ok v → isStdVendor v = true)
    (hfetch : fetch_data oracle order = .ok (df, ds)) :
    df.cols = final7 ∧ "adjcp" ∉ df.cols ∧
    ∀ row ∈ df.rows, ∃ t, t ∈ order ∧ ∃ v, oracle t = .ok v ∧
      ∃ p, p ∈ v.idx.zip v.rows ∧
        row.getD 4 Cell.na = p.2.getD 4 Cell.na ∧
        row.getD 0 Cell.na = fmtCell p.1 ∧
        row.getD 6 Cell.na = Cell.str t := by
  obtain ⟨hcols, hrows⟩ := fetch_data_charact oracle order hstd df ds hfetch
  refine ⟨hcols, by rw [hcols]; decide, ?_⟩
  intro row hrow
  obtain ⟨t, ht, v, hv, p, hp, hroweq⟩ := hrows row hrow
  have hv6 : p.2.length = 6 :=
    (isStdVendor_spec (hstd t ht v hv)).2.2.1 p.2 (List.of_mem_zip hp).2
  obtain ⟨a, b, c, d, e, f, hp2⟩ := exists_six hv6
  refine ⟨t, ht, v, hv, p, hp, ?_, ?_, ?_⟩ <;> rw [hroweq, hp2] <;> rfl

/-- Claim C7: for every non-empty `ticker_list` and every completion order
(a permutation of it), when `fetch_data` returns a table each value of its
`tic` column is the ticker string of some element of `ticker_list`. -/
theorem fetch_data_tic_subset (oracle : String → Except Exc DF)
    (order tickerL : List String) (df : DF) (ds : List Diag)
    (hneL : tickerL ≠ [])
    (hperm : order.Perm tickerL)
    (hstd : ∀ t ∈ order, ∀ v, oracle t = .ok v → isStdVendor v = true)
    (hfetch : fetch_data oracle order = .ok (df, ds)) :
    ∃ tics, getColAttr df "tic" = .ok tics ∧
      ∀ c ∈ tics, ∃ t, t ∈ tickerL ∧ c = Cell.str t := by
  obtain ⟨hcols, hrows⟩ := fetch_data_charact oracle order hstd df ds hfetch
  have hfi : findIdx "tic" df.cols = some 6 := by rw [hcols]; rfl
  refine ⟨df.rows.map (fun r => r.getD 6 Cell.na), getColAttr_at hfi, ?_⟩
  intro c0 hc0
  obtain ⟨row, hrow, rfl⟩ := List.mem_map.1 hc0
  obtain ⟨t, ht, v, hv, p, hp, hroweq⟩ := hrows row hrow
  refine ⟨t, hperm.mem_iff.1 ht, ?_⟩
  have hv6 : p.2.length = 6 :=
    (isStdVendor_spec (hstd t ht v hv)).2.2.1 p.2 (List.of_mem_zip hp).2
  obtain ⟨a, b, c, d, e, f, hp2⟩ := exists_six hv6
  rw [hroweq, hp2]
  rfl

lemma postPipeline_rows_no_na {df0 d : DF} (h : postPipeline df0 = .ok d) :
    ∀ row ∈ d.rows, row.any Cell.isNA = false := by
  unfold postPipeline at h
  cases h1 : tryRename (reset_index df0) with
  | error e => rw [h1] at h; dsimp only at h; exact absurd h (by simp)
  | ok df4 =>
    rw [h1] at h
    dsimp only at h
    cases h2 : getColAttr df4 "date" with
    | error e => rw [h2] at h; dsimp only at h; exact absurd h (by simp)
    | ok dates =>
      rw [h2] at h
      dsimp only at h
      cases h3 : mapStrftime dates with
      | error e => rw [h3] at h; dsimp only at h; exact absurd h (by simp)
      | ok nd =>
        rw [h3] at h
        dsimp only at h
        injection h with h4
        subst h4
        intro row hrow
        simp only [reset_index_drop, dropna] at hrow
        obtain ⟨p, hpf, rfl⟩ := List.mem_map.1 hrow
        have hpred := List.of_mem_filter hpf
        simpa using hpred

/-- Claim C8: no row of a table returned by `fetch_data` contains a missing
value in any column — rows with any missing field are dropped before the
table is returned. -/
theorem fetch_data_no_missing (oracle : String → Except Exc DF)
    (order : List String) (df : DF) (ds : List Diag)
    (hfetch : fetch_data oracle order = .ok (df, ds)) :
    ∀ row ∈ df.rows, ∀ c ∈ row, c ≠ Cell.na := by
  unfold fetch_data at hfetch
  cases hfan : fanInLoop oracle order emptyDF none [] with
  | error e => rw [hfan] at hfetch; dsimp only at hfetch; exact absurd hfetch (by simp)
  | ok pr =>
    obtain ⟨df0, ds0⟩ := pr
    rw [hfan] at hfetch
    dsimp only at hfetch
    cases hpp : postPipeline df0 with
    | error e => rw [hpp] at hfetch; dsimp only at hfetch; exact absurd hfetch (by simp)
    | ok d =>
      rw [hpp] at hfetch
      dsimp only at hfetch
      injection hfetch with hfe
      rw [Prod.mk.injEq] at hfe
      obtain ⟨hdf, _⟩ := hfe
      subst hdf
      intro row hrow c hc hceq
      have hall := postPipeline_rows_no_na hpp row hrow
      rw [List.any_eq_false] at hall
      have := hall c hc
      rw [hceq] at this
      simp [Cell.isNA] at this

lemma digitChar_isDigit (n : Nat) : (digitChar n).isDigit = true := by
  unfold digitChar
  split_ifs <;> decide

lemma matches_formatDate (y m d : Nat) : matchesYYYYMMDD (formatDate y m d) = true := by
  unfold matchesYYYYMMDD formatDate
  simp [digitChar_isDigit]

/-- Claim C9: on every successful fetch over standard-layout vendor data,
the `date` field of every row of the returned table is a string of the
shape `YYYY-MM-DD`. -/
theorem fetch_data_date_format (oracle : String → Except Exc DF)
    (order : List String) (df : DF) (ds : List Diag)
    (hstd : ∀ t ∈ order, ∀ v, oracle t = .ok v → isStdVendor v = true)
    (hfetch : fetch_data oracle order = .ok (df, ds)) :
    ∀ row ∈ df.rows, ∃ s, row.getD 0 Cell.na = Cell.str s ∧ matchesYYYYMMDD s = true := by
  obtain ⟨hcols, hrows⟩ := fetch_data_charact oracle order hstd df ds hfetch
  intro row hrow
  obtain ⟨t, ht, v, hv, p, hp, hroweq⟩ := hrows row hrow
  have hwfp : isWfDate p.1 = true :=
    (isStdVendor_spec (hstd t ht v hv)).2.2.2.2 p.1 (List.of_mem_zip hp).1
  obtain ⟨y, m2, d2, hp1⟩ : ∃ y m2 d2, p.1 = Cell.date y m2 d2 := by
    cases hc : p.1 with
    | na => rw [hc] at hwfp; simp [isWfDate] at hwfp
    | date y m2 d2 => exact ⟨y, m2, d2, rfl⟩
    | num q => rw [hc] at hwfp; simp [isWfDate] at hwfp
    | str s => rw [hc] at hwfp; simp [isWfDate] at hwfp
  refine ⟨formatDate y m2 d2, ?_, matches_formatDate y m2 d2⟩
  rw [hroweq, hp1]
  rfl

/-- The table `fetch_data` produces from `oracleW` on the one-ticker order
`["AAA"]`. -/
def dfWres : DF := ⟨none, rangeIdx 1, final7,
  [[Cell.str "2020-01-02", Cell.num 1, Cell.num 2, Cell.num 0, Cell.num 4,
    Cell.num 5, Cell.str "AAA"]]⟩

lemma fetch_W : fetch_data oracleW ["AAA"] = .ok (dfWres, []) := rfl

lemma oracleW_std : ∀ t ∈ ["AAA"], ∀ v, oracleW t = .ok v → isStdVendor v = true := by
  intro t _ v hv
  have hv2 : Except.ok vdfW = Except.ok v := hv
  injection hv2 with h
  rw [← h]
  decide

/-- Witness for claim C6, on a one-ticker all-success run: the close cell
of the single result row is the vendor's adjusted close. -/
theorem fetch_data_close_is_adjclose_witness :
    dfWres.cols = final7 ∧ "adjcp" ∉ dfWres.cols ∧
    ∀ row ∈ dfWres.rows, ∃ t, t ∈ ["AAA"] ∧ ∃ v, oracleW t = .ok v ∧
      ∃ p, p ∈ v.idx.zip v.rows ∧
        row.getD 4 Cell.na = p.2.getD 4 Cell.na ∧
        row.getD 0 Cell.na = fmtCell p.1 ∧
        row.getD 6 Cell.na = Cell.str t :=
  fetch_data_close_is_adjclose oracleW ["AAA"] dfWres [] oracleW_std fetch_W

/-- Witness for claim C7, on a one-ticker all-success run. -/
theorem fetch_data_tic_subset_witness :
    ∃ tics, getColAttr dfWres "tic" = .ok tics ∧
      ∀ c ∈ tics, ∃ t, t ∈ ["AAA"] ∧ c = Cell.str t :=
  fetch_data_tic_subset oracleW ["AAA"] ["AAA"] dfWres [] (by simp) (List.Perm.refl _)
    oracleW_std fetch_W

/-- Witness for claim C8, at the single row of a one-ticker all-success
run: its tic cell (like every other cell of the row) is not missing. -/
theorem fetch_data_no_missing_witness : Cell.str "AAA" ≠ Cell.na :=
  fetch_data_no_missing oracleW ["AAA"] dfWres [] fetch_W
    [Cell.str "2020-01-02", Cell.num 1, Cell.num 2, Cell.num 0, Cell.num 4, Cell.num 5,
      Cell.str "AAA"] (by decide) (Cell.str "AAA") (by decide)

/-- Witness for claim C9, at the single row of a one-ticker all-success
run: its date cell is the string 2020-01-02, which matches the pattern. -/
theorem fetch_data_date_format_witness :
    ∃ s, ([Cell.str "2020-01-02", Cell.num 1, Cell.num 2, Cell.num 0, Cell.num 4, Cell.num 5,
        Cell.str "AAA"] : List Cell).getD 0 Cell.na = Cell.str s ∧ matchesYYYYMMDD s = true :=
  fetch_data_date_format oracleW ["AAA"] dfWres [] oracleW_std fetch_W
    [Cell.str "2020-01-02", Cell.num 1, Cell.num 2, Cell.num 0, Cell.num 4, Cell.num 5,
      Cell.str "AAA"] (by decide)
